import Mathlib

/-!
Shallow embedding of `auto-publish-rustfmt-syntax` (`src/main.rs`), a tool that
extracts a closure of local crates out of a rust source tree, copies them into an
output workspace, injects a `rustc_private` feature line into allow-listed crates,
renames crates under a `rustfmt_` namespace, and writes a workspace `Cargo.toml`.

Paths are modelled as lists of path segments (`List String`); file contents as
documents (`Doc`), either plain text or a parsed TOML table; the filesystem as an
association list from paths to documents.  The recursive dependency resolver is
embedded with an explicit fuel parameter; `Res.fuelOut` marks fuel exhaustion (a
model artifact standing for non-termination), `Res.fail` marks a panic of the
source program (`expect` / `unwrap`).
-/

set_option maxHeartbeats 1000000

/-- Three-way comparison on `Nat`, the base of all derived comparators. -/
def cmpNat (a b : Nat) : Ordering :=
  if a < b then .lt else if b < a then .gt else .eq

/-- Comparator on `Char` by code point; agrees with Rust's byte-wise `str` order
because UTF-8 preserves code-point order. -/
def cmpChar (a b : Char) : Ordering :=
  cmpNat a.toNat b.toNat

/-- Lexicographic comparator on lists, mirroring Rust's derived `Ord` for
sequences (a strict prefix is smaller). -/
def cmpList {α : Type} (c : α → α → Ordering) : List α → List α → Ordering
  | [], [] => .eq
  | [], _ :: _ => .lt
  | _ :: _, [] => .gt
  | a :: as, b :: bs =>
    match c a b with
    | .eq => cmpList c as bs
    | o => o

/-- Comparator on `String` mirroring Rust's `str` ordering. -/
def cmpString (a b : String) : Ordering :=
  cmpList cmpChar a.data b.data

/-- Comparator on paths (lists of segments), mirroring `Path`'s component-wise
ordering. -/
def cmpPath (a b : List String) : Ordering :=
  cmpList cmpString a b

/-- Combine two comparison results lexicographically, as Rust's `#[derive(Ord)]`
does field by field. -/
def cmpLex (o₁ o₂ : Ordering) : Ordering :=
  match o₁ with
  | .eq => o₂
  | o => o

/-- `LocalCrate` embeds `struct LocalCrate<'a>` of `src/main.rs`: the descriptor
of one local crate (name, root directory, primary source file, manifest file). -/
structure LocalCrate where
  name : String
  root_path : List String
  lib_path : List String
  toml_path : List String
deriving DecidableEq

/-- The derived `Ord` of `LocalCrate`: lexicographic on the fields in declaration
order `name`, `root_path`, `lib_path`, `toml_path` (so its primary key is
`(name, root_path)`). -/
def cmpCrate (a b : LocalCrate) : Ordering :=
  cmpLex (cmpString a.name b.name)
    (cmpLex (cmpPath a.root_path b.root_path)
      (cmpLex (cmpPath a.lib_path b.lib_path) (cmpPath a.toml_path b.toml_path)))

/-- Ordered insertion into a sorted list; on an `eq` hit the existing element is
kept, exactly as `BTreeSet::insert` keeps the present value. -/
def insertSorted {α : Type} (c : α → α → Ordering) (x : α) : List α → List α
  | [] => [x]
  | y :: ys =>
    match c x y with
    | .lt => x :: y :: ys
    | .eq => y :: ys
    | .gt => y :: insertSorted c x ys

/-- `collectSet c l` models `l.into_iter().collect::<BTreeSet<_>>()` for the
comparator `c`: insert the elements in iteration order into an ordered set. -/
def collectSet {α : Type} (c : α → α → Ordering) (l : List α) : List α :=
  l.foldl (fun acc x => insertSorted c x acc) []

/-- One target of a package, as reported by `cargo metadata` (`targets[0]` is the
primary source entry point). -/
structure Target where
  src_path : List String
deriving DecidableEq

/-- One declared dependency of a package; `source = none` flags a local
(path-resolved) dependency, as in `dep.source.is_none()`. -/
structure Dependency where
  name : String
  source : Option String
deriving DecidableEq

/-- A package of the graph snapshot, the slice of `cargo_metadata::Package` the
program consumes. -/
structure Package where
  name : String
  manifest_path : List String
  targets : List Target
  dependencies : List Dependency
deriving DecidableEq

/-- The package graph snapshot (`cargo_metadata::Metadata`), reduced to the
package list the program reads. -/
structure Metadata where
  packages : List Package
deriving DecidableEq

/-- `resolvePackage` embeds the lookup
`metadata.packages.iter().find(|p| p.name == krate || format!("lib{}", p.name) == krate)`. -/
def resolvePackage (m : Metadata) (krate : String) : Option Package :=
  m.packages.find? (fun p => p.name == krate || ("lib" ++ p.name) == krate)

/-- Build the `LocalCrate` descriptor of a resolved package: root is the parent
of the manifest path, the primary source is `targets[0].src_path`; `none` models
the panics on a parentless manifest path or an empty target list. -/
def mkLocalCrate (p : Package) : Option LocalCrate :=
  match p.manifest_path with
  | [] => none
  | _ :: _ =>
    match p.targets with
    | [] => none
    | t :: _ =>
      some ⟨p.name, p.manifest_path.dropLast, t.src_path, p.manifest_path⟩

/-- Result of a fuelled computation: `ok`, `fail` (a panic in the source, i.e.
`expect`/`unwrap`), or `fuelOut` (the fuel bound was hit; a model artifact that
stands for recursion depth the model could not afford). -/
inductive Res (α : Type) where
  | ok : α → Res α
  | fail : Res α
  | fuelOut : Res α
deriving DecidableEq

/-- Sequence a fuelled resolver over a list of crate names, concatenating the
per-name results; embeds the iterator chaining inside
`get_local_dependencies_of_crate` and the `flat_map` of `find_crates_to_copy`. -/
def resMany (f : String → Res (List LocalCrate)) : List String → Res (List LocalCrate)
  | [] => .ok []
  | k :: ks =>
    match f k with
    | .ok a =>
      match resMany f ks with
      | .ok b => .ok (a ++ b)
      | .fail => .fail
      | .fuelOut => .fuelOut
    | .fail => .fail
    | .fuelOut => .fuelOut

/-- `getLocalDeps` embeds `get_local_dependencies_of_crate`: resolve the crate,
build its descriptor, recurse into every dependency whose `source` is `none`
(local), and collect descriptor plus recursive results into a `BTreeSet`.
The extra fuel argument bounds recursion depth. -/
def getLocalDeps (m : Metadata) : Nat → String → Res (List LocalCrate)
  | 0, _ => .fuelOut
  | fuel + 1, krate =>
    match resolvePackage m krate with
    | none => .fail
    | some p =>
      match mkLocalCrate p with
      | none => .fail
      | some this =>
        match resMany (getLocalDeps m fuel)
            ((p.dependencies.filter (fun d => d.source = none)).map Dependency.name) with
        | .ok rest => .ok (collectSet cmpCrate (this :: rest))
        | .fail => .fail
        | .fuelOut => .fuelOut

/-- `find_crates_to_copy` of `src/main.rs`: flat-map the per-request closures and
collect the result into one `BTreeSet<LocalCrate>`. -/
def find_crates_to_copy (m : Metadata) (fuel : Nat) (crates : List String) :
    Res (List LocalCrate) :=
  match resMany (getLocalDeps m fuel) crates with
  | .ok l => .ok (collectSet cmpCrate l)
  | .fail => .fail
  | .fuelOut => .fuelOut

/-- Boolean test that the first list is an initial segment of the second
(`Path::strip_prefix` succeeds / `str::starts_with`). -/
def pfx {α : Type} [DecidableEq α] : List α → List α → Bool
  | [], _ => true
  | _ :: _, [] => false
  | a :: as, b :: bs => if a = b then pfx as bs else false

/-- `str::replacen(pat, rep, 1)` on character lists: replace the first occurrence
of `pat` (if any) by `rep`, leaving everything else unchanged. -/
def replaceFirst (pat rep : List Char) : List Char → List Char
  | [] => if pfx pat ([] : List Char) then rep else []
  | c :: cs =>
    if pfx pat (c :: cs) then rep ++ (c :: cs).drop pat.length
    else c :: replaceFirst pat rep cs

/-- `add_rustfmt_prefix` of `src/main.rs` (named `add_rustfmt_pfx` here): if the
name starts with `rustc_` apply `replacen("rustc_", "rustfmt_", 1)`, otherwise
prepend `rustfmt_`. -/
def add_rustfmt_pfx (name : String) : String :=
  if pfx "rustc_".data name.data
  then String.mk (replaceFirst "rustc_".data "rustfmt_".data name.data)
  else "rustfmt_" ++ name

/-- Structured TOML value: the fragment of `toml::Value` the program
distinguishes (strings and tables; every other leaf kind behaves like `str`
for this code, which only asks `as_table`/`as_str`). -/
inductive Toml where
  | str : String → Toml
  | table : List (String × Toml) → Toml

/-- `toml::Value::as_table`. -/
def Toml.asTable : Toml → Option (List (String × Toml))
  | .table t => some t
  | _ => none

/-- `toml::Value::as_str`. -/
def Toml.asStr : Toml → Option String
  | .str s => some s
  | _ => none

/-- Lookup in a TOML table (`table.get(key)`). -/
def tableGet (t : List (String × Toml)) (k : String) : Option Toml :=
  (t.find? (fun e => e.1 == k)).map Prod.snd

/-- `table.insert(key, value)`: overwrite the value under an existing key, or
add the binding if the key is absent (TOML tables have unique keys). -/
def tableInsert : List (String × Toml) → String → Toml → List (String × Toml)
  | [], k, v => [(k, v)]
  | e :: rest, k, v => if e.1 == k then (k, v) :: rest else e :: tableInsert rest k v

/-- The per-dependency rewrite inside `rename_crate`'s loop: a table entry with
a `path` key gets its `package` field forced to the transformed alias (explicit
`package` string override if present, else the dependency key name); everything
else is untouched. -/
def renameDepEntry (e : String × Toml) : String × Toml :=
  match e.2 with
  | .table dt =>
    if (tableGet dt "path").isSome then
      (e.1, .table (tableInsert dt "package"
        (.str (add_rustfmt_pfx (((tableGet dt "package").bind Toml.asStr).getD e.1)))))
    else e
  | _ => e

/-- The manifest transformation of `rename_crate`: rename the `package.name`
field through the namespace transform, then rewrite the alias of every
path-resolved entry of the top-level `dependencies` table. `none` models the
panics on a missing/ill-typed `package` table or `name` field. -/
def rename_crate_table (t : List (String × Toml)) : Option (List (String × Toml)) :=
  match tableGet t "package" with
  | none => none
  | some pv =>
    match pv.asTable with
    | none => none
    | some pkg =>
      match tableGet pkg "name" with
      | none => none
      | some nv =>
        match nv.asStr with
        | none => none
        | some name =>
          let t₁ := tableInsert t "package"
            (.table (tableInsert pkg "name" (.str (add_rustfmt_pfx name))))
          match (tableGet t₁ "dependencies").bind Toml.asTable with
          | none => some t₁
          | some deps => some (tableInsert t₁ "dependencies" (.table (deps.map renameDepEntry)))

/-- A file's content: plain text, or a TOML document already in parsed form
(standing for text that parses to that table; a `text` document at a manifest
path models unparseable TOML). -/
inductive Doc where
  | text : String → Doc
  | toml : List (String × Toml) → Doc

/-- The filesystem: a finite map from paths to documents, as an association
list. -/
abbrev FS : Type := List (List String × Doc)

/-- Read the file at a path (`fs::read_to_string`); `none` is a not-found I/O
error. -/
def fsRead (fs : FS) (p : List String) : Option Doc :=
  (fs.find? (fun e => decide (e.1 = p))).map Prod.snd

/-- Create/overwrite the file at a path (`fs::File::create` + `write_all`). -/
def fsWrite (fs : FS) (p : List String) (d : Doc) : FS :=
  (p, d) :: fs.filter (fun e => decide (¬ e.1 = p))

/-- `copy_dir_all` of `src/main.rs`: every file under `src` is re-rooted under
`dst` (path relative to `src` appended to `dst`) and copied byte-for-byte. -/
def copy_dir_all (fs : FS) (src dst : List String) : FS :=
  fs.foldl (fun acc e =>
    if pfx src e.1 then fsWrite acc (dst ++ e.1.drop src.length) e.2 else acc) fs

/-- `add_rustc_private_feature` of `src/main.rs`: read the crate's primary
source file at its ORIGINAL path (`source_krate.lib_path`), and write the
directive line followed by that content to `to.join(lib_path.file_name())`. -/
def add_rustc_private_feature (fs : FS) (k : LocalCrate) (dst : List String) : Option FS :=
  match k.lib_path.getLast? with
  | none => none
  | some fname =>
    match fsRead fs k.lib_path with
    | some (.text source_content) =>
      some (fsWrite fs (dst ++ [fname])
        (.text ("#![feature(rustc_private)]\n" ++ source_content)))
    | _ => none

/-- `rename_crate` of `src/main.rs` at the filesystem level: read and parse the
manifest at the crate's ORIGINAL `toml_path`, transform it with
`rename_crate_table`, and write the result to `to/Cargo.toml`. -/
def rename_crate_fs (fs : FS) (k : LocalCrate) (dst : List String) : Option FS :=
  match fsRead fs k.toml_path with
  | some (.toml t) =>
    match rename_crate_table t with
    | some t₂ => some (fsWrite fs (dst ++ ["Cargo.toml"]) (.toml t₂))
    | none => none
  | _ => none

/-- `fs::remove_dir_all`: fails (I/O error) when the directory does not exist,
otherwise removes everything under it. -/
def remove_dir_all (fs : FS) (p : List String) : Option FS :=
  if fs.any (fun e => pfx p e.1) then some (fs.filter (fun e => !pfx p e.1)) else none

/-- The fixed allow-list `CRATES_WHICH_REQUIRES_RUSTC_PRIVATE_FEATURES`. -/
def CRATES_WHICH_REQUIRES_RUSTC_PRIVATE_FEATURES : List String :=
  ["rustc_data_structures", "rustc_session"]

/-- The destination directory names accumulated by `main`'s loop
(`krate.root_path.file_name()` per closure member, in order). -/
def descriptorMembers : List LocalCrate → Option (List String)
  | [] => some []
  | k :: ks =>
    match k.root_path.getLast?, descriptorMembers ks with
    | some seg, some rest => some (seg :: rest)
    | _, _ => none

/-- The workspace descriptor text built from a member-name list: header, one
quoted name per line, footer. -/
def descriptorText (names : List String) : String :=
  "[workspace]\nmembers = [\n"
    ++ String.join (names.map (fun n => "  \"" ++ n ++ "\",\n")) ++ "]\n"

/-- The member lines of the generated `Cargo.toml`, one quoted destination
directory name per closure member, in order (the loop body of `main`). -/
def cargoTomlLines : List LocalCrate → Option String
  | [] => some ""
  | k :: ks =>
    match k.root_path.getLast? with
    | none => none
    | some seg =>
      match cargoTomlLines ks with
      | none => none
      | some rest => some ("  \"" ++ seg ++ "\",\n" ++ rest)

/-- The full generated workspace `Cargo.toml` content of `main`. -/
def cargoTomlContent (crates : List LocalCrate) : Option String :=
  (cargoTomlLines crates).map
    (fun body => "[workspace]\nmembers = [\n" ++ body ++ "]\n")

/-- The per-crate pipeline step of `main`'s loop: copy the crate's tree to
`out/<root dir name>`, inject the feature line when the crate is allow-listed,
then rewrite its manifest. -/
def processCrate (fs : FS) (out : List String) (k : LocalCrate) : Option FS :=
  match k.root_path.getLast? with
  | none => none
  | some seg =>
    match (if CRATES_WHICH_REQUIRES_RUSTC_PRIVATE_FEATURES.contains k.name
           then add_rustc_private_feature (copy_dir_all fs k.root_path (out ++ [seg])) k
             (out ++ [seg])
           else some (copy_dir_all fs k.root_path (out ++ [seg]))) with
    | none => none
    | some fs₂ => rename_crate_fs fs₂ k (out ++ [seg])

/-- The filesystem-touching part of `main`: optionally clear the output
directory (`--force`), process every closure member in order, then write the
workspace descriptor. -/
def mainRun (fs : FS) (force : Bool) (out : List String) (crates : List LocalCrate) :
    Option FS :=
  match (if force then remove_dir_all fs out else some fs) with
  | none => none
  | some fs₀ =>
    match crates.foldlM (fun acc k => processCrate acc out k) fs₀ with
    | none => none
    | some fs₁ =>
      match cargoTomlContent crates with
      | none => none
      | some txt => some (fsWrite fs₁ (out ++ ["Cargo.toml"]) (.text txt))

/-- Reachability of a package from a requested name through resolution followed
by any chain of local (path-resolved, `source = none`) dependency edges. -/
inductive LocalReach (m : Metadata) : String → Package → Prop where
  | base : ∀ {k p}, resolvePackage m k = some p → LocalReach m k p
  | step : ∀ {k p d q}, LocalReach m k p → d ∈ p.dependencies → d.source = none →
      resolvePackage m d.name = some q → LocalReach m k q

/-- Project the plain-text content of a document. -/
def Doc.asText : Doc → Option String
  | .text s => some s
  | _ => none

/-- Formalization of the acyclicity precondition on the snapshot's local
dependency relation: a rank function that strictly decreases along every local
dependency edge (such a function exists exactly when the finite local-edge
graph is acyclic). -/
def rankOk (m : Metadata) (rankP : Package → Nat) : Prop :=
  ∀ p ∈ m.packages, ∀ d ∈ p.dependencies, d.source = none →
    ∀ q ∈ m.packages, resolvePackage m d.name = some q → rankP q < rankP p

/-- Example package `a` with a local dependency on `b` and a registry dependency
on `c`. -/
def pkgA : Package :=
  ⟨"a", ["root", "a", "Cargo.toml"], [⟨["root", "a", "lib.rs"]⟩],
   [⟨"b", none⟩, ⟨"c", some "registry"⟩]⟩

/-- Example package `b`, no dependencies. -/
def pkgB : Package :=
  ⟨"b", ["root", "b", "Cargo.toml"], [⟨["root", "b", "lib.rs"]⟩], []⟩

/-- Example package `c`, no dependencies (reachable from `a` only through a
registry edge). -/
def pkgC : Package :=
  ⟨"c", ["root", "c", "Cargo.toml"], [⟨["root", "c", "lib.rs"]⟩], []⟩

/-- Example snapshot with packages `a`, `b`, `c`. -/
def mW : Metadata := ⟨[pkgA, pkgB, pkgC]⟩

/-- Snapshot whose two packages live in root directories `a/x` and `b/x`, which
share the final path segment `x`. -/
def mDup : Metadata :=
  ⟨[⟨"p", ["a", "x", "Cargo.toml"], [⟨["a", "x", "lib.rs"]⟩], []⟩,
    ⟨"q", ["b", "x", "Cargo.toml"], [⟨["b", "x", "lib.rs"]⟩], []⟩]⟩

/-- Manifest table with a path-resolved dependency declared under
`dev-dependencies` (and a valid `package` table). -/
def tCex : List (String × Toml) :=
  [("package", .table [("name", .str "mycrate")]),
   ("dev-dependencies", .table [("foo", .table [("path", .str "../foo")])])]

/-- Allow-listed crate whose primary source file sits at `src/lib.rs` below the
crate root (the layout of a typical cargo package). -/
def cexCrate : LocalCrate :=
  ⟨"rustc_data_structures", ["root", "rds"], ["root", "rds", "src", "lib.rs"],
   ["root", "rds", "Cargo.toml"]⟩

/-- Source tree for `cexCrate`: its primary source file holds `orig`, its
manifest is a minimal valid package manifest. -/
def cexFS : FS :=
  [(["root", "rds", "src", "lib.rs"], .text "orig"),
   (["root", "rds", "Cargo.toml"],
    .toml [("package", .table [("name", .str "rustc_data_structures")])])]

/-- The filesystem produced by one `processCrate` step on `cexFS` (used to state
closed witness facts). -/
def cexResult : FS :=
  [(["out", "rds", "Cargo.toml"],
    .toml [("package", .table [("name", .str "rustfmt_data_structures")])]),
   (["out", "rds", "lib.rs"], .text "#![feature(rustc_private)]\norig"),
   (["out", "rds", "src", "lib.rs"], .text "orig"),
   (["root", "rds", "src", "lib.rs"], .text "orig"),
   (["root", "rds", "Cargo.toml"],
    .toml [("package", .table [("name", .str "rustc_data_structures")])])]

/-- The filesystem after one full `mainRun` (no force) on `cexFS`; running
`mainRun` again on it reproduces it unchanged. -/
def cexRun1 : FS :=
  [(["out", "Cargo.toml"], .text "[workspace]\nmembers = [\n  \"rds\",\n]\n"),
   (["out", "rds", "Cargo.toml"],
    .toml [("package", .table [("name", .str "rustfmt_data_structures")])]),
   (["out", "rds", "lib.rs"], .text "#![feature(rustc_private)]\norig"),
   (["out", "rds", "src", "lib.rs"], .text "orig"),
   (["root", "rds", "src", "lib.rs"], .text "orig"),
   (["root", "rds", "Cargo.toml"],
    .toml [("package", .table [("name", .str "rustc_data_structures")])])]

/-- Manifest with one path-resolved and one registry dependency under the
top-level `dependencies` table. -/
def tW : List (String × Toml) :=
  [("package", .table [("name", .str "mycrate")]),
   ("dependencies", .table
     [("util", .table [("path", .str "../util")]), ("log", .str "0.4")])]

/-- The rewrite of `tW` by `rename_crate_table`. -/
def tWres : List (String × Toml) :=
  [("package", .table [("name", .str "rustfmt_mycrate")]),
   ("dependencies", .table
     [("util", .table [("path", .str "../util"), ("package", .str "rustfmt_util")]),
      ("log", .str "0.4")])]

theorem cmpNat_swap (a b : Nat) : cmpNat a b = (cmpNat b a).swap := by
  unfold cmpNat
  split_ifs <;> first | rfl | omega

theorem cmpNat_eq {a b : Nat} (h : cmpNat a b = .eq) : a = b := by
  unfold cmpNat at h
  split_ifs at h <;> omega

theorem cmpChar_swap (a b : Char) : cmpChar a b = (cmpChar b a).swap :=
  cmpNat_swap _ _

theorem cmpChar_eq {a b : Char} (h : cmpChar a b = .eq) : a = b := by
  apply Char.ext
  exact UInt32.toNat.inj (cmpNat_eq h)

theorem cmpList_swap {α : Type} (c : α → α → Ordering)
    (hswap : ∀ x y, c x y = (c y x).swap) :
    ∀ a b : List α, cmpList c a b = (cmpList c b a).swap := by
  intro a
  induction a with
  | nil => intro b; cases b <;> rfl
  | cons x xs ih =>
    intro b
    cases b with
    | nil => rfl
    | cons y ys =>
      simp only [cmpList]
      rw [hswap x y]
      cases c y x
      · rfl
      · exact ih ys
      · rfl

theorem cmpList_eq {α : Type} (c : α → α → Ordering)
    (heq : ∀ x y, c x y = .eq → x = y) :
    ∀ a b : List α, cmpList c a b = .eq → a = b := by
  intro a
  induction a with
  | nil =>
    intro b h
    cases b with
    | nil => rfl
    | cons y ys => exact absurd h (by simp [cmpList])
  | cons x xs ih =>
    intro b h
    cases b with
    | nil => exact absurd h (by simp [cmpList])
    | cons y ys =>
      simp only [cmpList] at h
      cases hxy : c x y <;> rw [hxy] at h
      · exact Ordering.noConfusion h
      · rw [heq x y hxy, ih ys h]
      · exact Ordering.noConfusion h

theorem cmpString_swap (a b : String) : cmpString a b = (cmpString b a).swap :=
  cmpList_swap cmpChar cmpChar_swap _ _

theorem cmpString_eq {a b : String} (h : cmpString a b = .eq) : a = b := by
  cases a; cases b
  exact congrArg String.mk (cmpList_eq cmpChar (fun _ _ hc => cmpChar_eq hc) _ _ h)

theorem cmpPath_swap (a b : List String) : cmpPath a b = (cmpPath b a).swap :=
  cmpList_swap cmpString cmpString_swap _ _

theorem cmpPath_eq {a b : List String} (h : cmpPath a b = .eq) : a = b :=
  cmpList_eq cmpString (fun _ _ hc => cmpString_eq hc) _ _ h

theorem cmpLex_swap (o₁ o₂ : Ordering) : (cmpLex o₁ o₂).swap = cmpLex o₁.swap o₂.swap := by
  cases o₁ <;> rfl

theorem cmpLex_swap_eq {o₁ o₂ p₁ p₂ : Ordering} (h₁ : o₁ = p₁.swap) (h₂ : o₂ = p₂.swap) :
    cmpLex o₁ o₂ = (cmpLex p₁ p₂).swap := by
  rw [h₁, h₂, ← cmpLex_swap]

theorem cmpLex_eq {o₁ o₂ : Ordering} (h : cmpLex o₁ o₂ = .eq) : o₁ = .eq ∧ o₂ = .eq := by
  cases o₁
  · exact Ordering.noConfusion h
  · exact ⟨rfl, h⟩
  · exact Ordering.noConfusion h

theorem cmpCrate_swap (a b : LocalCrate) : cmpCrate a b = (cmpCrate b a).swap := by
  unfold cmpCrate
  exact cmpLex_swap_eq (cmpString_swap _ _)
    (cmpLex_swap_eq (cmpPath_swap _ _)
      (cmpLex_swap_eq (cmpPath_swap _ _) (cmpPath_swap _ _)))

theorem cmpCrate_eq {a b : LocalCrate} (h : cmpCrate a b = .eq) : a = b := by
  unfold cmpCrate at h
  obtain ⟨h₁, h₂⟩ := cmpLex_eq h
  obtain ⟨h₃, h₄⟩ := cmpLex_eq h₂
  obtain ⟨h₅, h₆⟩ := cmpLex_eq h₄
  obtain ⟨n₁, r₁, l₁, t₁⟩ := a
  obtain ⟨n₂, r₂, l₂, t₂⟩ := b
  simp only [LocalCrate.mk.injEq]
  exact ⟨cmpString_eq h₁, cmpPath_eq h₃, cmpPath_eq h₅, cmpPath_eq h₆⟩

theorem cmp_lt_of_gt {α : Type} (c : α → α → Ordering)
    (hswap : ∀ x y : α, c x y = (c y x).swap) {a b : α} (h : c a b = .gt) :
    c b a = .lt := by
  have hs := hswap a b
  rw [h] at hs
  cases hc : c b a
  · rfl
  · rw [hc] at hs; exact absurd hs (by decide)
  · rw [hc] at hs; exact absurd hs (by decide)

theorem head?_insertSorted {α : Type} (c : α → α → Ordering) (x : α) (l : List α) :
    (insertSorted c x l).head? = some x ∨ (insertSorted c x l).head? = l.head? := by
  cases l with
  | nil => left; rfl
  | cons y ys =>
    simp only [insertSorted]
    cases c x y
    · left; rfl
    · right; rfl
    · right; rfl

theorem chain'_insertSorted {α : Type} (c : α → α → Ordering)
    (hswap : ∀ x y, c x y = (c y x).swap) (x : α) :
    ∀ l : List α, l.Chain' (fun a b => c a b = .lt) →
      (insertSorted c x l).Chain' (fun a b => c a b = .lt) := by
  intro l
  induction l with
  | nil => intro _; exact List.chain'_singleton x
  | cons y ys ih =>
    intro h
    rw [List.chain'_cons'] at h
    obtain ⟨hy, hys⟩ := h
    simp only [insertSorted]
    cases hxy : c x y
    · rw [List.chain'_cons']
      refine ⟨?_, List.chain'_cons'.mpr ⟨hy, hys⟩⟩
      intro z hz
      simp only [List.head?_cons, Option.mem_def, Option.some.injEq] at hz
      rw [← hz]
      exact hxy
    · exact List.chain'_cons'.mpr ⟨hy, hys⟩
    · rw [List.chain'_cons']
      refine ⟨?_, ih hys⟩
      intro z hz
      rcases head?_insertSorted c x ys with hh | hh
      · rw [hh] at hz
        simp only [Option.mem_def, Option.some.injEq] at hz
        rw [← hz]
        exact cmp_lt_of_gt c hswap hxy
      · rw [hh] at hz
        exact hy z hz

theorem mem_of_mem_insertSorted {α : Type} (c : α → α → Ordering) {x z : α} :
    ∀ {l : List α}, z ∈ insertSorted c x l → z = x ∨ z ∈ l := by
  intro l
  induction l with
  | nil =>
    intro h
    simp [insertSorted] at h
    exact Or.inl h
  | cons y ys ih =>
    intro h
    simp only [insertSorted] at h
    cases hxy : c x y <;> rw [hxy] at h
    · simp only [List.mem_cons] at h
      rcases h with h | h | h
      · exact Or.inl h
      · exact Or.inr (by rw [h]; exact List.mem_cons_self y ys)
      · exact Or.inr (List.mem_cons_of_mem y h)
    · exact Or.inr h
    · simp only [List.mem_cons] at h
      rcases h with h | h
      · exact Or.inr (by rw [h]; exact List.mem_cons_self y ys)
      · rcases ih h with h' | h'
        · exact Or.inl h'
        · exact Or.inr (List.mem_cons_of_mem y h')

theorem mem_insertSorted_self {α : Type} (c : α → α → Ordering)
    (heq : ∀ a b : α, c a b = .eq → a = b) (x : α) :
    ∀ l : List α, x ∈ insertSorted c x l := by
  intro l
  induction l with
  | nil => simp [insertSorted]
  | cons y ys ih =>
    simp only [insertSorted]
    cases hxy : c x y
    · exact List.mem_cons_self x (y :: ys)
    · have hxy' := heq x y hxy
      subst hxy'
      exact List.mem_cons_self x ys
    · exact List.mem_cons_of_mem y ih

theorem mem_insertSorted_of_mem {α : Type} (c : α → α → Ordering) (x : α) {z : α} :
    ∀ {l : List α}, z ∈ l → z ∈ insertSorted c x l := by
  intro l
  induction l with
  | nil => intro h; cases h
  | cons y ys ih =>
    intro h
    simp only [insertSorted]
    cases hxy : c x y
    · exact List.mem_cons_of_mem x h
    · exact h
    · rcases List.mem_cons.mp h with h' | h'
      · rw [h']; exact List.mem_cons_self y _
      · exact List.mem_cons_of_mem y (ih h')

theorem chain'_foldl_insert {α : Type} (c : α → α → Ordering)
    (hswap : ∀ x y, c x y = (c y x).swap) :
    ∀ (l acc : List α), acc.Chain' (fun a b => c a b = .lt) →
      (l.foldl (fun a x => insertSorted c x a) acc).Chain' (fun a b => c a b = .lt) := by
  intro l
  induction l with
  | nil => intro acc h; exact h
  | cons x xs ih =>
    intro acc h
    exact ih _ (chain'_insertSorted c hswap x acc h)

theorem chain'_collectSet {α : Type} (c : α → α → Ordering)
    (hswap : ∀ x y, c x y = (c y x).swap) (l : List α) :
    (collectSet c l).Chain' (fun a b => c a b = .lt) :=
  chain'_foldl_insert c hswap l [] List.chain'_nil

theorem mem_of_mem_foldl_insert {α : Type} (c : α → α → Ordering) {z : α} :
    ∀ (l acc : List α), z ∈ l.foldl (fun a x => insertSorted c x a) acc →
      z ∈ acc ∨ z ∈ l := by
  intro l
  induction l with
  | nil => intro acc h; exact Or.inl h
  | cons x xs ih =>
    intro acc h
    rcases ih _ h with h' | h'
    · rcases mem_of_mem_insertSorted c h' with h'' | h''
      · exact Or.inr (by rw [h'']; exact List.mem_cons_self x xs)
      · exact Or.inl h''
    · exact Or.inr (List.mem_cons_of_mem x h')

theorem mem_of_mem_collectSet {α : Type} (c : α → α → Ordering) {z : α} {l : List α}
    (h : z ∈ collectSet c l) : z ∈ l := by
  rcases mem_of_mem_foldl_insert c l [] h with h' | h'
  · cases h'
  · exact h'

theorem mem_foldl_insert_of_mem {α : Type} (c : α → α → Ordering)
    (heq : ∀ a b : α, c a b = .eq → a = b) {z : α} :
    ∀ (l acc : List α), z ∈ acc ∨ z ∈ l →
      z ∈ l.foldl (fun a x => insertSorted c x a) acc := by
  intro l
  induction l with
  | nil =>
    intro acc h
    rcases h with h | h
    · exact h
    · cases h
  | cons x xs ih =>
    intro acc h
    rcases h with h | h
    · exact ih _ (Or.inl (mem_insertSorted_of_mem c x h))
    · rcases List.mem_cons.mp h with h' | h'
      · exact ih _ (Or.inl (by rw [h']; exact mem_insertSorted_self c heq x acc))
      · exact ih _ (Or.inr h')

theorem mem_collectSet_of_mem {α : Type} (c : α → α → Ordering)
    (heq : ∀ a b : α, c a b = .eq → a = b) {z : α} {l : List α} (h : z ∈ l) :
    z ∈ collectSet c l :=
  mem_foldl_insert_of_mem c heq l [] (Or.inr h)

theorem find?_unique {α : Type} (p q : α → Bool) :
    ∀ (l : List α) (a b : α), l.find? p = some a → l.find? q = some b →
      q a = true → p b = true → a = b := by
  intro l
  induction l with
  | nil => intro a b ha; exact Option.noConfusion ha
  | cons x xs ih =>
    intro a b ha hb hqa hpb
    simp only [List.find?] at ha hb
    cases hp : p x <;> rw [hp] at ha
    · cases hq : q x <;> rw [hq] at hb
      · exact ih a b ha hb hqa hpb
      · have hbx := Option.some.inj hb
        rw [← hbx] at hpb
        rw [hp] at hpb
        exact Bool.noConfusion hpb
    · have hax := Option.some.inj ha
      cases hq : q x <;> rw [hq] at hb
      · rw [← hax] at hqa
        rw [hq] at hqa
        exact Bool.noConfusion hqa
      · have hbx := Option.some.inj hb
        rw [← hax, ← hbx]

theorem resolvePackage_mem {m : Metadata} {k : String} {p : Package}
    (h : resolvePackage m k = some p) : p ∈ m.packages :=
  List.mem_of_find?_eq_some h

theorem resolvePackage_name_unique {m : Metadata} {k₁ k₂ : String} {p₁ p₂ : Package}
    (h₁ : resolvePackage m k₁ = some p₁) (h₂ : resolvePackage m k₂ = some p₂)
    (hn : p₁.name = p₂.name) : p₁ = p₂ := by
  unfold resolvePackage at h₁ h₂
  apply find?_unique _ _ _ _ _ h₁ h₂
  · have hp₂ := List.find?_some h₂
    simp only [Bool.or_eq_true, beq_iff_eq] at hp₂ ⊢
    rcases hp₂ with h | h
    · exact Or.inl (by rw [hn]; exact h)
    · exact Or.inr (by rw [hn]; exact h)
  · have hp₁ := List.find?_some h₁
    simp only [Bool.or_eq_true, beq_iff_eq] at hp₁ ⊢
    rcases hp₁ with h | h
    · exact Or.inl (by rw [← hn]; exact h)
    · exact Or.inr (by rw [← hn]; exact h)

theorem localReach_mem {m : Metadata} {k : String} {p : Package}
    (h : LocalReach m k p) : p ∈ m.packages := by
  cases h with
  | base h => exact resolvePackage_mem h
  | step hr hd hs h => exact resolvePackage_mem h

theorem localReach_resolve {m : Metadata} {k : String} {p : Package}
    (h : LocalReach m k p) : ∃ k', resolvePackage m k' = some p := by
  cases h with
  | base h => exact ⟨_, h⟩
  | step hr hd hs h => exact ⟨_, h⟩

theorem localReach_lift {m : Metadata} {kd k : String} {p₀ q : Package} {d : Dependency}
    (hres : resolvePackage m k = some p₀) (hd : d ∈ p₀.dependencies)
    (hs : d.source = none) (hdn : d.name = kd) (h : LocalReach m kd q) :
    LocalReach m k q := by
  induction h with
  | base h => exact LocalReach.step (LocalReach.base hres) hd hs (hdn ▸ h)
  | step hr hd' hs' h' ih => exact LocalReach.step ih hd' hs' h'

theorem resMany_cons_ok {f : String → Res (List LocalCrate)} {k : String}
    {ks : List String} {l : List LocalCrate} (h : resMany f (k :: ks) = .ok l) :
    ∃ a b, f k = .ok a ∧ resMany f ks = .ok b ∧ l = a ++ b := by
  simp only [resMany] at h
  cases hfk : f k <;> rw [hfk] at h
  · cases hmany : resMany f ks <;> rw [hmany] at h
    · injection h with h'
      exact ⟨_, _, rfl, rfl, h'.symm⟩
    · exact Res.noConfusion h
    · exact Res.noConfusion h
  · exact Res.noConfusion h
  · exact Res.noConfusion h

theorem getLocalDeps_succ_ok {m : Metadata} {fuel : Nat} {k : String} {l : List LocalCrate}
    (h : getLocalDeps m (fuel + 1) k = .ok l) :
    ∃ p kr rest, resolvePackage m k = some p ∧ mkLocalCrate p = some kr ∧
      resMany (getLocalDeps m fuel)
        ((p.dependencies.filter (fun d => d.source = none)).map Dependency.name) = .ok rest ∧
      l = collectSet cmpCrate (kr :: rest) := by
  cases hres : resolvePackage m k with
  | none => simp [getLocalDeps, hres] at h
  | some p =>
    cases hmk : mkLocalCrate p with
    | none => simp [getLocalDeps, hres, hmk] at h
    | some kr =>
      cases hmany : resMany (getLocalDeps m fuel)
          ((p.dependencies.filter (fun d => d.source = none)).map Dependency.name) with
      | ok rest =>
        simp only [getLocalDeps, hres, hmk, hmany, Res.ok.injEq] at h
        exact ⟨p, kr, rest, rfl, hmk, hmany, h.symm⟩
      | fail => simp [getLocalDeps, hres, hmk, hmany] at h
      | fuelOut => simp [getLocalDeps, hres, hmk, hmany] at h

theorem resMany_reach_aux {f : String → Res (List LocalCrate)} {P : String → LocalCrate → Prop}
    (hf : ∀ k l, f k = .ok l → ∀ c ∈ l, P k c) :
    ∀ (ks : List String) (l : List LocalCrate), resMany f ks = .ok l →
      ∀ c ∈ l, ∃ k ∈ ks, P k c := by
  intro ks
  induction ks with
  | nil =>
    intro l h c hc
    injection h with h'
    rw [← h'] at hc
    cases hc
  | cons k ks ih =>
    intro l h c hc
    obtain ⟨a, b, hfk, hmany, hl⟩ := resMany_cons_ok h
    subst hl
    rcases List.mem_append.mp hc with hc' | hc'
    · exact ⟨k, List.mem_cons_self k ks, hf k _ hfk c hc'⟩
    · obtain ⟨k', hk', hp⟩ := ih _ hmany c hc'
      exact ⟨k', List.mem_cons_of_mem k hk', hp⟩

theorem getLocalDeps_reach {m : Metadata} :
    ∀ (fuel : Nat) (k : String) (l : List LocalCrate), getLocalDeps m fuel k = .ok l →
      ∀ c ∈ l, ∃ p, LocalReach m k p ∧ mkLocalCrate p = some c := by
  intro fuel
  induction fuel with
  | zero => intro k l h; exact Res.noConfusion h
  | succ fuel ih =>
    intro k l h c hc
    obtain ⟨p, kr, rest, hres, hmk, hmany, hl⟩ := getLocalDeps_succ_ok h
    subst hl
    have hmem := mem_of_mem_collectSet cmpCrate hc
    rcases List.mem_cons.mp hmem with rfl | hcr
    · exact ⟨p, LocalReach.base hres, hmk⟩
    · obtain ⟨k', hk'mem, p', hreach, hmk'⟩ :=
        resMany_reach_aux (fun k' l' h' c' hc' => ih k' l' h' c' hc') _ _ hmany c hcr
      simp only [List.mem_map, List.mem_filter] at hk'mem
      obtain ⟨d, ⟨hdmem, hdsrc⟩, hdname⟩ := hk'mem
      exact ⟨p', localReach_lift hres hdmem (of_decide_eq_true hdsrc) hdname hreach, hmk'⟩

theorem getLocalDeps_self_mem {m : Metadata} {fuel : Nat} {k : String} {l : List LocalCrate}
    (h : getLocalDeps m fuel k = .ok l) :
    ∃ p c, resolvePackage m k = some p ∧ mkLocalCrate p = some c ∧ c ∈ l := by
  cases fuel with
  | zero => exact Res.noConfusion h
  | succ fuel =>
    obtain ⟨p, kr, rest, hres, hmk, hmany, hl⟩ := getLocalDeps_succ_ok h
    subst hl
    exact ⟨p, kr, hres, hmk,
      mem_collectSet_of_mem cmpCrate (fun _ _ hc => cmpCrate_eq hc)
        (List.mem_cons_self kr rest)⟩

theorem resMany_ok_elem {f : String → Res (List LocalCrate)} {ks : List String}
    {l : List LocalCrate} {k : String} (h : resMany f ks = .ok l) (hk : k ∈ ks) :
    ∃ a, f k = .ok a ∧ ∀ c ∈ a, c ∈ l := by
  induction ks generalizing l with
  | nil => cases hk
  | cons k₀ ks ih =>
    obtain ⟨a, b, hfk, hmany, hl⟩ := resMany_cons_ok h
    subst hl
    rcases List.mem_cons.mp hk with rfl | hk'
    · exact ⟨a, hfk, fun c hc => List.mem_append_left b hc⟩
    · obtain ⟨a', hfa', hsub⟩ := ih hmany hk'
      exact ⟨a', hfa', fun c hc => List.mem_append_right a (hsub c hc)⟩

theorem find_crates_ok_inv {m : Metadata} {fuel : Nat} {crates : List String}
    {l : List LocalCrate} (h : find_crates_to_copy m fuel crates = .ok l) :
    ∃ l₀, resMany (getLocalDeps m fuel) crates = .ok l₀ ∧ l = collectSet cmpCrate l₀ := by
  unfold find_crates_to_copy at h
  cases hr : resMany (getLocalDeps m fuel) crates <;> rw [hr] at h
  · injection h with h'
    exact ⟨_, rfl, h'.symm⟩
  · exact Res.noConfusion h
  · exact Res.noConfusion h

theorem resMany_fuelOut_inv {f : String → Res (List LocalCrate)} {ks : List String}
    (h : resMany f ks = .fuelOut) : ∃ k ∈ ks, f k = .fuelOut := by
  induction ks with
  | nil => exact Res.noConfusion h
  | cons k ks ih =>
    simp only [resMany] at h
    cases hfk : f k <;> rw [hfk] at h
    · cases hmany : resMany f ks <;> rw [hmany] at h
      · exact Res.noConfusion h
      · exact Res.noConfusion h
      · obtain ⟨k', hk', h'⟩ := ih hmany
        exact ⟨k', List.mem_cons_of_mem k hk', h'⟩
    · exact Res.noConfusion h
    · exact ⟨k, List.mem_cons_self k ks, hfk⟩

theorem getLocalDeps_no_fuelOut {m : Metadata} {rankP : Package → Nat} (hrk : rankOk m rankP) :
    ∀ (fuel : Nat) (k : String),
      (∀ q ∈ m.packages, resolvePackage m k = some q → rankP q + 2 ≤ fuel) →
      1 ≤ fuel → getLocalDeps m fuel k ≠ .fuelOut := by
  intro fuel
  induction fuel with
  | zero => intro k _ h1; exact absurd h1 (by omega)
  | succ fuel ih =>
    intro k hbound _
    cases hres : resolvePackage m k with
    | none => simp [getLocalDeps, hres]
    | some p =>
      cases hmk : mkLocalCrate p with
      | none => simp [getLocalDeps, hres, hmk]
      | some kr =>
        have hp : p ∈ m.packages := resolvePackage_mem hres
        have hrankp : rankP p + 2 ≤ fuel + 1 := hbound p hp hres
        cases hmany : resMany (getLocalDeps m fuel)
            ((p.dependencies.filter (fun d => d.source = none)).map Dependency.name) with
        | ok rest => simp [getLocalDeps, hres, hmk, hmany]
        | fail => simp [getLocalDeps, hres, hmk, hmany]
        | fuelOut =>
          exfalso
          obtain ⟨k', hk', hfo⟩ := resMany_fuelOut_inv hmany
          simp only [List.mem_map, List.mem_filter] at hk'
          obtain ⟨d, ⟨hdmem, hdsrc⟩, hdname⟩ := hk'
          exact ih k'
            (fun q hq hresq => by
              have hlt := hrk p hp d hdmem (of_decide_eq_true hdsrc) q hq
                (by rw [hdname]; exact hresq)
              omega)
            (by omega) hfo

theorem le_foldr_max (f : Package → Nat) :
    ∀ (l : List Package) (q : Package), q ∈ l → f q ≤ (l.map f).foldr max 0 := by
  intro l
  induction l with
  | nil => intro q hq; cases hq
  | cons x xs ih =>
    intro q hq
    rcases List.mem_cons.mp hq with rfl | hq'
    · simp only [List.map_cons, List.foldr_cons]
      exact Nat.le_max_left _ _
    · simp only [List.map_cons, List.foldr_cons]
      exact le_trans (ih q hq') (Nat.le_max_right _ _)

theorem find_crates_no_fuelOut {m : Metadata} {rankP : Package → Nat} (hrk : rankOk m rankP)
    (crates : List String) :
    find_crates_to_copy m ((m.packages.map rankP).foldr max 0 + 2) crates ≠ .fuelOut := by
  intro h
  unfold find_crates_to_copy at h
  cases hr : resMany (getLocalDeps m ((m.packages.map rankP).foldr max 0 + 2)) crates <;>
    rw [hr] at h
  · exact Res.noConfusion h
  · exact Res.noConfusion h
  · obtain ⟨k, _, hfo⟩ := resMany_fuelOut_inv hr
    exact getLocalDeps_no_fuelOut hrk _ k
      (fun q hq _ => by
        have := le_foldr_max rankP m.packages q hq
        omega)
      (by omega) hfo

theorem fsRead_cons (e : List String × Doc) (fs : FS) (q : List String) :
    fsRead (e :: fs) q = if e.1 = q then some e.2 else fsRead fs q := by
  simp only [fsRead, List.find?]
  by_cases h : e.1 = q
  · simp [h]
  · simp [h]

theorem fsRead_filter_ne {p q : List String} (hne : q ≠ p) :
    ∀ fs : FS, fsRead (fs.filter (fun e => decide (¬ e.1 = p))) q = fsRead fs q := by
  intro fs
  induction fs with
  | nil => rfl
  | cons e rest ih =>
    by_cases hep : e.1 = p
    · have hfe : (decide (¬ e.1 = p)) = false := by simp [hep]
      rw [List.filter_cons, hfe]
      simp only [Bool.false_eq_true, if_false]
      rw [ih, fsRead_cons]
      have : ¬ e.1 = q := by rw [hep]; exact fun hq => hne hq.symm
      rw [if_neg this]
    · have hfe : (decide (¬ e.1 = p)) = true := by simp [hep]
      rw [List.filter_cons, hfe]
      simp only [if_true]
      rw [fsRead_cons, fsRead_cons, ih]

theorem fsRead_fsWrite_self (fs : FS) (p : List String) (d : Doc) :
    fsRead (fsWrite fs p d) p = some d := by
  rw [fsWrite, fsRead_cons]
  simp

theorem fsRead_fsWrite_ne {q p : List String} (hne : q ≠ p) (fs : FS) (d : Doc) :
    fsRead (fsWrite fs p d) q = fsRead fs q := by
  rw [fsWrite, fsRead_cons]
  have : ¬ p = q := fun h => hne h.symm
  rw [if_neg this]
  exact fsRead_filter_ne hne fs

theorem pfx_append_self {α : Type} [DecidableEq α] : ∀ a b : List α, pfx a (a ++ b) = true := by
  intro a
  induction a with
  | nil => intro b; rfl
  | cons x xs ih => intro b; simp [pfx, ih]

theorem copy_foldl_read_outside {src dst p : List String} (hout : pfx dst p = false) :
    ∀ (l : List (List String × Doc)) (acc : FS),
      fsRead (l.foldl (fun acc e =>
        if pfx src e.1 then fsWrite acc (dst ++ e.1.drop src.length) e.2 else acc) acc) p =
      fsRead acc p := by
  intro l
  induction l with
  | nil => intro acc; rfl
  | cons e rest ih =>
    intro acc
    simp only [List.foldl_cons]
    rw [ih]
    by_cases hp : pfx src e.1 = true
    · rw [if_pos hp]
      apply fsRead_fsWrite_ne
      intro heq
      rw [heq, pfx_append_self] at hout
      exact Bool.noConfusion hout
    · rw [if_neg hp]

theorem copy_dir_all_read_outside {fs : FS} {src dst p : List String}
    (hout : pfx dst p = false) :
    fsRead (copy_dir_all fs src dst) p = fsRead fs p :=
  copy_foldl_read_outside hout fs fs

theorem strJoin_foldl : ∀ (l : List String) (a : String),
    l.foldl (fun acc x => acc ++ x) a = a ++ String.join l := by
  intro l
  induction l with
  | nil => intro a; simp [String.join, String.append_empty]
  | cons x xs ih =>
    intro a
    simp only [List.foldl_cons]
    rw [ih]
    have hx : String.join (x :: xs) = x ++ String.join xs := by
      have h0 : String.join (x :: xs) = xs.foldl (fun acc y => acc ++ y) ("" ++ x) := rfl
      rw [h0, ih ("" ++ x), String.empty_append]
    rw [hx, String.append_assoc]

theorem strJoin_cons (s : String) (l : List String) :
    String.join (s :: l) = s ++ String.join l := by
  have h0 : String.join (s :: l) = l.foldl (fun acc y => acc ++ y) ("" ++ s) := rfl
  rw [h0, strJoin_foldl, String.empty_append]

theorem tableGet_insert_self : ∀ (t : List (String × Toml)) (k : String) (v : Toml),
    tableGet (tableInsert t k v) k = some v := by
  intro t k v
  induction t with
  | nil => simp [tableInsert, tableGet, List.find?]
  | cons e rest ih =>
    by_cases he : (e.1 == k) = true
    · simp [tableInsert, tableGet, List.find?, he]
    · have he' : (e.1 == k) = false := by simp at he ⊢; exact he
      simp only [tableInsert, he', Bool.false_eq_true, if_false]
      rw [tableGet] at ih ⊢
      simp only [List.find?, he']
      exact ih

theorem tableGet_insert_ne {k' k : String} (hne : k' ≠ k) :
    ∀ (t : List (String × Toml)) (v : Toml),
      tableGet (tableInsert t k v) k' = tableGet t k' := by
  intro t v
  induction t with
  | nil =>
    have h1 : (k == k') = false := by simp; exact fun h => hne h.symm
    simp [tableInsert, tableGet, List.find?, h1]
  | cons e rest ih =>
    by_cases he : (e.1 == k) = true
    · have hek : e.1 = k := by simpa using he
      simp only [tableInsert, he, if_true]
      rw [tableGet, tableGet]
      simp only [List.find?]
      have h1 : (k == k') = false := by simp; exact fun h => hne h.symm
      have h2 : (e.1 == k') = false := by rw [hek]; exact h1
      rw [h1, h2]
    · have he' : (e.1 == k) = false := by simp at he ⊢; exact he
      simp only [tableInsert, he', Bool.false_eq_true, if_false]
      rw [tableGet, tableGet]
      simp only [List.find?]
      by_cases hq : (e.1 == k') = true
      · rw [hq]
      · have hq' : (e.1 == k') = false := by simp at hq ⊢; exact hq
        rw [hq']
        exact ih

theorem add_rustc_private_inv {fs fs' : FS} {k : LocalCrate} {dst : List String}
    (h : add_rustc_private_feature fs k dst = some fs') :
    ∃ fname orig, k.lib_path.getLast? = some fname ∧
      fsRead fs k.lib_path = some (.text orig) ∧
      fs' = fsWrite fs (dst ++ [fname]) (.text ("#![feature(rustc_private)]\n" ++ orig)) := by
  cases hlast : k.lib_path.getLast? with
  | none => simp [add_rustc_private_feature, hlast] at h
  | some fname =>
    cases hread : fsRead fs k.lib_path with
    | none => simp [add_rustc_private_feature, hlast, hread] at h
    | some doc =>
      cases doc with
      | text orig =>
        simp only [add_rustc_private_feature, hlast, hread, Option.some.injEq] at h
        exact ⟨fname, orig, rfl, rfl, h.symm⟩
      | toml t => simp [add_rustc_private_feature, hlast, hread] at h

theorem rename_crate_fs_inv {fs fs' : FS} {k : LocalCrate} {dst : List String}
    (h : rename_crate_fs fs k dst = some fs') :
    ∃ t t₂, fsRead fs k.toml_path = some (.toml t) ∧ rename_crate_table t = some t₂ ∧
      fs' = fsWrite fs (dst ++ ["Cargo.toml"]) (.toml t₂) := by
  cases hread : fsRead fs k.toml_path with
  | none => simp [rename_crate_fs, hread] at h
  | some doc =>
    cases doc with
    | text s => simp [rename_crate_fs, hread] at h
    | toml t =>
      cases hrt : rename_crate_table t with
      | none => simp [rename_crate_fs, hread, hrt] at h
      | some t₂ =>
        simp only [rename_crate_fs, hread, hrt, Option.some.injEq] at h
        exact ⟨t, t₂, rfl, hrt, h.symm⟩

theorem processCrate_inv {fs fs' : FS} {out : List String} {k : LocalCrate}
    (h : processCrate fs out k = some fs') :
    ∃ seg fs₂, k.root_path.getLast? = some seg ∧
      ((CRATES_WHICH_REQUIRES_RUSTC_PRIVATE_FEATURES.contains k.name = true ∧
        add_rustc_private_feature (copy_dir_all fs k.root_path (out ++ [seg])) k
          (out ++ [seg]) = some fs₂) ∨
       (CRATES_WHICH_REQUIRES_RUSTC_PRIVATE_FEATURES.contains k.name = false ∧
        fs₂ = copy_dir_all fs k.root_path (out ++ [seg]))) ∧
      rename_crate_fs fs₂ k (out ++ [seg]) = some fs' := by
  cases hseg : k.root_path.getLast? with
  | none => simp [processCrate, hseg] at h
  | some seg =>
    by_cases hal : k.name ∈ CRATES_WHICH_REQUIRES_RUSTC_PRIVATE_FEATURES
    · have halc : CRATES_WHICH_REQUIRES_RUSTC_PRIVATE_FEATURES.contains k.name = true :=
        List.elem_eq_true_of_mem hal
      cases hinj : add_rustc_private_feature (copy_dir_all fs k.root_path (out ++ [seg])) k
          (out ++ [seg]) with
      | none => simp [processCrate, hseg, hal, halc, hinj] at h
      | some fs₂ =>
        simp only [processCrate, hseg, halc, if_true, hinj] at h
        exact ⟨seg, fs₂, rfl, Or.inl ⟨halc, hinj⟩, h⟩
    · have halc : CRATES_WHICH_REQUIRES_RUSTC_PRIVATE_FEATURES.contains k.name = false := by
        cases hc : CRATES_WHICH_REQUIRES_RUSTC_PRIVATE_FEATURES.contains k.name
        · rfl
        · exact absurd (List.mem_of_elem_eq_true hc) hal
      simp only [processCrate, hseg, halc, Bool.false_eq_true, if_false] at h
      exact ⟨seg, _, rfl, Or.inr ⟨halc, rfl⟩, h⟩

theorem processCrate_read_outside {fs fs' : FS} {out p : List String} {k : LocalCrate}
    {seg : String} (h : processCrate fs out k = some fs')
    (hseg : k.root_path.getLast? = some seg)
    (hout : pfx (out ++ [seg]) p = false) :
    fsRead fs' p = fsRead fs p := by
  obtain ⟨seg', fs₂, hseg', hstep, hren⟩ := processCrate_inv h
  rw [hseg] at hseg'
  injection hseg' with he
  subst he
  obtain ⟨t, t₂, _, _, hfs'⟩ := rename_crate_fs_inv hren
  subst hfs'
  have hne₁ : p ≠ (out ++ [seg]) ++ ["Cargo.toml"] := by
    intro he
    rw [he, pfx_append_self] at hout
    exact Bool.noConfusion hout
  rw [fsRead_fsWrite_ne hne₁]
  rcases hstep with ⟨hal, hinj⟩ | ⟨hal, hcopy⟩
  · obtain ⟨fname, orig, hl, hr, hfs₂⟩ := add_rustc_private_inv hinj
    subst hfs₂
    have hne₂ : p ≠ (out ++ [seg]) ++ [fname] := by
      intro he
      rw [he, pfx_append_self] at hout
      exact Bool.noConfusion hout
    rw [fsRead_fsWrite_ne hne₂]
    exact copy_dir_all_read_outside hout
  · subst hcopy
    exact copy_dir_all_read_outside hout

theorem processCrate_target_content {fs fs' : FS} {out : List String} {k : LocalCrate}
    {seg fname orig : String}
    (hseg : k.root_path.getLast? = some seg)
    (hfname : k.lib_path.getLast? = some fname)
    (hallow : CRATES_WHICH_REQUIRES_RUSTC_PRIVATE_FEATURES.contains k.name = true)
    (hlib : fsRead fs k.lib_path = some (.text orig))
    (houtlib : pfx (out ++ [seg]) k.lib_path = false)
    (hfn : fname ≠ "Cargo.toml")
    (hrun : processCrate fs out k = some fs') :
    fsRead fs' ((out ++ [seg]) ++ [fname]) =
      some (.text ("#![feature(rustc_private)]\n" ++ orig)) := by
  obtain ⟨seg', fs₂, hseg', hstep, hren⟩ := processCrate_inv hrun
  rw [hseg] at hseg'
  injection hseg' with he
  subst he
  rcases hstep with ⟨_, hinj⟩ | ⟨hal', _⟩
  · obtain ⟨fname', orig', hl, hr, hfs₂⟩ := add_rustc_private_inv hinj
    rw [hfname] at hl
    injection hl with he'
    subst he'
    rw [copy_dir_all_read_outside houtlib, hlib] at hr
    injection hr with hr'
    injection hr' with hr''
    subst hr''
    obtain ⟨t, t₂, _, _, hfs'⟩ := rename_crate_fs_inv hren
    subst hfs'
    subst hfs₂
    have hneC : (out ++ [seg]) ++ [fname] ≠ (out ++ [seg]) ++ ["Cargo.toml"] := by
      intro he
      have := List.append_cancel_left he
      simp only [List.cons.injEq, and_true] at this
      exact hfn this
    rw [fsRead_fsWrite_ne hneC, fsRead_fsWrite_self]
  · rw [hallow] at hal'
    exact Bool.noConfusion hal'

theorem descriptorMembers_cons_inv {k : LocalCrate} {ks : List LocalCrate}
    {names : List String} (h : descriptorMembers (k :: ks) = some names) :
    ∃ seg rest, k.root_path.getLast? = some seg ∧ descriptorMembers ks = some rest ∧
      names = seg :: rest := by
  cases hseg : k.root_path.getLast? with
  | none => simp [descriptorMembers, hseg] at h
  | some seg =>
    cases hrest : descriptorMembers ks with
    | none => simp [descriptorMembers, hseg, hrest] at h
    | some rest =>
      simp only [descriptorMembers, hseg, hrest, Option.some.injEq] at h
      exact ⟨seg, rest, rfl, rfl, h.symm⟩

theorem descriptorMembers_length_get : ∀ (cl : List LocalCrate) (names : List String),
    descriptorMembers cl = some names →
    names.length = cl.length ∧
      ∀ i : Nat, names[i]? = (cl[i]?).bind (fun k => k.root_path.getLast?) := by
  intro cl
  induction cl with
  | nil =>
    intro names h
    injection h with h'
    refine ⟨by rw [← h']; rfl, ?_⟩
    intro i
    rw [← h']
    simp
  | cons k ks ih =>
    intro names h
    obtain ⟨seg, rest, hseg, hrest, hn⟩ := descriptorMembers_cons_inv h
    subst hn
    obtain ⟨hlen, hget⟩ := ih rest hrest
    refine ⟨by simp [hlen], ?_⟩
    intro i
    cases i with
    | zero => simp [hseg]
    | succ i =>
      simp only [List.getElem?_cons_succ]
      exact hget i

theorem descriptorMembers_mem : ∀ (cl : List LocalCrate) (names : List String),
    descriptorMembers cl = some names →
    ∀ n ∈ names, ∃ b ∈ cl, b.root_path.getLast? = some n := by
  intro cl
  induction cl with
  | nil =>
    intro names h n hn
    injection h with h'
    rw [← h'] at hn
    cases hn
  | cons k ks ih =>
    intro names h n hn
    obtain ⟨seg, rest, hseg, hrest, hname⟩ := descriptorMembers_cons_inv h
    subst hname
    rcases List.mem_cons.mp hn with rfl | hn'
    · exact ⟨k, List.mem_cons_self k ks, hseg⟩
    · obtain ⟨b, hb, hbl⟩ := ih rest hrest n hn'
      exact ⟨b, List.mem_cons_of_mem k hb, hbl⟩

theorem descriptorMembers_nodup : ∀ (cl : List LocalCrate) (names : List String),
    descriptorMembers cl = some names →
    cl.Pairwise (fun a b => a.root_path.getLast? ≠ b.root_path.getLast?) →
    names.Nodup := by
  intro cl
  induction cl with
  | nil =>
    intro names h _
    injection h with h'
    rw [← h']
    exact List.nodup_nil
  | cons k ks ih =>
    intro names h hpw
    obtain ⟨seg, rest, hseg, hrest, hname⟩ := descriptorMembers_cons_inv h
    subst hname
    rw [List.pairwise_cons] at hpw
    obtain ⟨hhead, htail⟩ := hpw
    rw [List.nodup_cons]
    refine ⟨?_, ih rest hrest htail⟩
    intro hmem
    obtain ⟨b, hb, hbl⟩ := descriptorMembers_mem ks rest hrest seg hmem
    exact hhead b hb (by rw [hseg, hbl])

theorem cargoTomlLines_join : ∀ (cl : List LocalCrate) (names : List String),
    descriptorMembers cl = some names →
    cargoTomlLines cl = some (String.join (names.map (fun n => "  \"" ++ n ++ "\",\n"))) := by
  intro cl
  induction cl with
  | nil =>
    intro names h
    injection h with h'
    rw [← h']
    rfl
  | cons k ks ih =>
    intro names h
    obtain ⟨seg, rest, hseg, hrest, hname⟩ := descriptorMembers_cons_inv h
    subst hname
    have hks := ih rest hrest
    simp only [cargoTomlLines, hseg, hks]
    rw [List.map_cons, strJoin_cons]

theorem cargoTomlContent_eq {cl : List LocalCrate} {names : List String}
    (h : descriptorMembers cl = some names) :
    cargoTomlContent cl = some (descriptorText names) := by
  rw [cargoTomlContent, cargoTomlLines_join cl names h]
  rfl

theorem mainRun_force_missing {fs : FS} {out : List String} {crates : List LocalCrate}
    (h : ∀ e ∈ fs, pfx out e.1 = false) :
    remove_dir_all fs out = none ∧ mainRun fs true out crates = none := by
  have hany : fs.any (fun e => pfx out e.1) = false := by
    rw [List.any_eq_false]
    intro x hx
    simp [h x hx]
  have hrm : remove_dir_all fs out = none := by
    rw [remove_dir_all, if_neg]
    simp [hany]
  refine ⟨hrm, ?_⟩
  simp [mainRun, hrm]

theorem replaceFirst_pfx {pat rep : List Char} {l : List Char} (h : pfx pat l = true) :
    replaceFirst pat rep l = rep ++ l.drop pat.length := by
  cases l with
  | nil =>
    cases pat with
    | nil => simp [replaceFirst, pfx]
    | cons c cs => simp [pfx] at h
  | cons c cs => simp [replaceFirst, h]

theorem rename_crate_table_inv {t t₂ : List (String × Toml)}
    (h : rename_crate_table t = some t₂) :
    ∃ pv pkg nv name, tableGet t "package" = some pv ∧ pv.asTable = some pkg ∧
      tableGet pkg "name" = some nv ∧ nv.asStr = some name ∧
      (((tableGet t "dependencies").bind Toml.asTable = none ∧
          t₂ = tableInsert t "package"
            (.table (tableInsert pkg "name" (.str (add_rustfmt_pfx name))))) ∨
        (∃ deps, (tableGet t "dependencies").bind Toml.asTable = some deps ∧
          t₂ = tableInsert (tableInsert t "package"
              (.table (tableInsert pkg "name" (.str (add_rustfmt_pfx name)))))
            "dependencies" (.table (deps.map renameDepEntry)))) := by
  cases hpv : tableGet t "package" with
  | none => simp [rename_crate_table, hpv] at h
  | some pv =>
    cases hpkg : pv.asTable with
    | none => simp [rename_crate_table, hpv, hpkg] at h
    | some pkg =>
      cases hnv : tableGet pkg "name" with
      | none => simp [rename_crate_table, hpv, hpkg, hnv] at h
      | some nv =>
        cases hname : nv.asStr with
        | none => simp [rename_crate_table, hpv, hpkg, hnv, hname] at h
        | some name =>
          have hswap : tableGet (tableInsert t "package"
              (.table (tableInsert pkg "name" (.str (add_rustfmt_pfx name)))))
              "dependencies" = tableGet t "dependencies" :=
            tableGet_insert_ne (by decide) t _
          cases hdeps : (tableGet t "dependencies").bind Toml.asTable with
          | none =>
            simp only [rename_crate_table, hpv, hpkg, hnv, hname, hswap, hdeps,
              Option.some.injEq] at h
            exact ⟨pv, pkg, nv, name, rfl, hpkg, hnv, hname, Or.inl ⟨rfl, h.symm⟩⟩
          | some deps =>
            simp only [rename_crate_table, hpv, hpkg, hnv, hname, hswap, hdeps,
              Option.some.injEq] at h
            exact ⟨pv, pkg, nv, name, rfl, hpkg, hnv, hname, Or.inr ⟨deps, rfl, h.symm⟩⟩

theorem rename_crate_table_other {t t₂ : List (String × Toml)} {key : String}
    (h : rename_crate_table t = some t₂) (hk₁ : key ≠ "package")
    (hk₂ : key ≠ "dependencies") : tableGet t₂ key = tableGet t key := by
  obtain ⟨pv, pkg, nv, name, _, _, _, _, hcase⟩ := rename_crate_table_inv h
  rcases hcase with ⟨_, ht₂⟩ | ⟨deps, _, ht₂⟩
  · subst ht₂
    exact tableGet_insert_ne hk₁ t _
  · subst ht₂
    rw [tableGet_insert_ne hk₂, tableGet_insert_ne hk₁]

theorem renameDepEntry_path {dn : String} {dt : List (String × Toml)}
    (hpath : (tableGet dt "path").isSome = true) :
    renameDepEntry (dn, .table dt) =
      (dn, .table (tableInsert dt "package"
        (.str (add_rustfmt_pfx (((tableGet dt "package").bind Toml.asStr).getD dn))))) := by
  simp [renameDepEntry, hpath]

theorem renameDepEntry_nopath {dn : String} {dt : List (String × Toml)}
    (hpath : (tableGet dt "path").isSome = false) :
    renameDepEntry (dn, .table dt) = (dn, .table dt) := by
  simp [renameDepEntry, hpath]

theorem renameDepEntry_nontable {dn : String} {v : Toml} (hv : v.asTable = none) :
    renameDepEntry (dn, v) = (dn, v) := by
  cases v with
  | str s => rfl
  | table dt => simp [Toml.asTable] at hv

theorem renameDepEntry_spec {dn : String} {dt : List (String × Toml)}
    (hpath : (tableGet dt "path").isSome = true) :
    ∃ dt₂, renameDepEntry (dn, .table dt) = (dn, .table dt₂) ∧
      tableGet dt₂ "package" =
        some (.str (add_rustfmt_pfx (((tableGet dt "package").bind Toml.asStr).getD dn))) ∧
      ∀ k₂, k₂ ≠ "package" → tableGet dt₂ k₂ = tableGet dt k₂ := by
  refine ⟨_, renameDepEntry_path hpath, tableGet_insert_self _ _ _, ?_⟩
  intro k₂ hk₂
  exact tableGet_insert_ne hk₂ dt _

theorem mkLocalCrate_name {p : Package} {c : LocalCrate} (h : mkLocalCrate p = some c) :
    c.name = p.name := by
  cases hm : p.manifest_path with
  | nil => simp [mkLocalCrate, hm] at h
  | cons a as =>
    cases ht : p.targets with
    | nil => simp [mkLocalCrate, hm, ht] at h
    | cons t ts =>
      simp only [mkLocalCrate, hm, ht, Option.some.injEq] at h
      rw [← h]

theorem mainRun_false_single_inv {fs fs' : FS} {out : List String} {k : LocalCrate}
    (h : mainRun fs false out [k] = some fs') :
    ∃ fsp txt, processCrate fs out k = some fsp ∧ cargoTomlContent [k] = some txt ∧
      fs' = fsWrite fsp (out ++ ["Cargo.toml"]) (.text txt) := by
  cases hp : processCrate fs out k with
  | none => simp [mainRun, List.foldlM_cons, List.foldlM_nil, hp] at h
  | some fsp =>
    cases hct : cargoTomlContent [k] with
    | none => simp [mainRun, List.foldlM_cons, List.foldlM_nil, hp, hct] at h
    | some txt =>
      simp only [mainRun, Bool.false_eq_true, if_false, List.foldlM_cons, List.foldlM_nil,
        hp, hct, Option.bind_eq_bind, Option.some_bind, Option.pure_def,
        Option.some.injEq] at h
      exact ⟨fsp, txt, rfl, rfl, h.symm⟩

/-- C4: for every graph snapshot and every requested-name sequence, the computed
closure's member sequence is sorted strictly increasingly under the derived
`LocalCrate` order, whose primary key is `(name, root_path)`; consequently no two
members share the identity key `(name, root_path)` (in fact no two members even
share a name, because every member comes from `find?` over the same package
list); and computing the closure twice from the same snapshot yields the same
member order (the computation is a pure function). -/
theorem c4_closure_sorted_dedup {m : Metadata} {fuel : Nat} {names : List String}
    {out : List LocalCrate} (h : find_crates_to_copy m fuel names = .ok out) :
    out.Chain' (fun a b => cmpCrate a b = .lt) ∧
    (∀ c₁ ∈ out, ∀ c₂ ∈ out, c₁.name = c₂.name ∧ c₁.root_path = c₂.root_path → c₁ = c₂) ∧
    find_crates_to_copy m fuel names = find_crates_to_copy m fuel names := by
  obtain ⟨l₀, hl₀, hout⟩ := find_crates_ok_inv h
  subst hout
  refine ⟨chain'_collectSet cmpCrate cmpCrate_swap l₀, ?_, rfl⟩
  intro c₁ h₁ c₂ h₂ hkey
  obtain ⟨hn, _⟩ := hkey
  have h₁' := mem_of_mem_collectSet cmpCrate h₁
  have h₂' := mem_of_mem_collectSet cmpCrate h₂
  obtain ⟨k₁, _, p₁, hr₁, hmk₁⟩ :=
    resMany_reach_aux (fun k l hl c hc => getLocalDeps_reach fuel k l hl c hc) _ _ hl₀ c₁ h₁'
  obtain ⟨k₂, _, p₂, hr₂, hmk₂⟩ :=
    resMany_reach_aux (fun k l hl c hc => getLocalDeps_reach fuel k l hl c hc) _ _ hl₀ c₂ h₂'
  obtain ⟨k₁', hres₁⟩ := localReach_resolve hr₁
  obtain ⟨k₂', hres₂⟩ := localReach_resolve hr₂
  have hpn : p₁.name = p₂.name := by
    rw [← mkLocalCrate_name hmk₁, ← mkLocalCrate_name hmk₂, hn]
  have hpp : p₁ = p₂ := resolvePackage_name_unique hres₁ hres₂ hpn
  rw [hpp] at hmk₁
  rw [hmk₂] at hmk₁
  exact (Option.some.inj hmk₁).symm

/-- C4 witness: the closure of `mW` requested from `a` is the strictly sorted,
duplicate-free pair `a`, `b`. -/
theorem c4_witness :
    ([⟨"a", ["root", "a"], ["root", "a", "lib.rs"], ["root", "a", "Cargo.toml"]⟩,
      ⟨"b", ["root", "b"], ["root", "b", "lib.rs"], ["root", "b", "Cargo.toml"]⟩] :
        List LocalCrate).Chain' (fun a b => cmpCrate a b = .lt) ∧
    (∀ c₁ ∈ ([⟨"a", ["root", "a"], ["root", "a", "lib.rs"], ["root", "a", "Cargo.toml"]⟩,
      ⟨"b", ["root", "b"], ["root", "b", "lib.rs"], ["root", "b", "Cargo.toml"]⟩] :
        List LocalCrate),
      ∀ c₂ ∈ ([⟨"a", ["root", "a"], ["root", "a", "lib.rs"], ["root", "a", "Cargo.toml"]⟩,
        ⟨"b", ["root", "b"], ["root", "b", "lib.rs"], ["root", "b", "Cargo.toml"]⟩] :
          List LocalCrate),
      c₁.name = c₂.name ∧ c₁.root_path = c₂.root_path → c₁ = c₂) ∧
    find_crates_to_copy mW 5 ["a"] = find_crates_to_copy mW 5 ["a"] :=
  c4_closure_sorted_dedup (by rfl)

/-- C5: the namespace transform maps a name beginning with `rustc_` to the name
with exactly that leading token replaced by `rustfmt_` (the tail, including any
later occurrence of `rustc_`, is carried over verbatim, so the transform applies
at most once), and prepends `rustfmt_` to any other name; in particular
`rustc_foo` maps to `rustfmt_foo` and `bar` maps to `rustfmt_bar`. -/
theorem c5_rename_transform (name : String) :
    add_rustfmt_pfx name =
      (if pfx "rustc_".data name.data = true
       then "rustfmt_" ++ String.mk (name.data.drop 6)
       else "rustfmt_" ++ name) ∧
    add_rustfmt_pfx "rustc_foo" = "rustfmt_foo" ∧
    add_rustfmt_pfx "bar" = "rustfmt_bar" := by
  refine ⟨?_, rfl, rfl⟩
  by_cases h : pfx "rustc_".data name.data = true
  · rw [if_pos h]
    unfold add_rustfmt_pfx
    rw [if_pos h, replaceFirst_pfx h]
    rfl
  · rw [if_neg h]
    unfold add_rustfmt_pfx
    rw [if_neg h]

/-- C6: whenever resolution of the whole request list succeeds, every explicitly
requested name (also one given in the alternate `lib`-aliased form) resolves to
a package whose descriptor is a member of the resulting closure. -/
theorem c6_reflexivity {m : Metadata} {fuel : Nat} {roots : List String}
    {out : List LocalCrate} (h : find_crates_to_copy m fuel roots = .ok out) :
    ∀ k ∈ roots, ∃ p, resolvePackage m k = some p ∧
      ∃ c, mkLocalCrate p = some c ∧ c ∈ out := by
  obtain ⟨l₀, hl₀, hout⟩ := find_crates_ok_inv h
  subst hout
  intro k hk
  obtain ⟨a, hfk, hsub⟩ := resMany_ok_elem hl₀ hk
  obtain ⟨p, c, hres, hmk, hc⟩ := getLocalDeps_self_mem hfk
  exact ⟨p, hres, c, hmk,
    mem_collectSet_of_mem cmpCrate (fun _ _ hc' => cmpCrate_eq hc') (hsub c hc)⟩

/-- C6 witness: requesting package `a` of `mW` through its `lib`-aliased form
`liba` still puts `a`'s descriptor into the closure. -/
theorem c6_witness :
    ∃ p, resolvePackage mW "liba" = some p ∧
      ∃ c, mkLocalCrate p = some c ∧
        c ∈ ([⟨"a", ["root", "a"], ["root", "a", "lib.rs"], ["root", "a", "Cargo.toml"]⟩,
             ⟨"b", ["root", "b"], ["root", "b", "lib.rs"], ["root", "b", "Cargo.toml"]⟩] :
               List LocalCrate) :=
  @c6_reflexivity mW 5 ["liba"]
    [⟨"a", ["root", "a"], ["root", "a", "lib.rs"], ["root", "a", "Cargo.toml"]⟩,
     ⟨"b", ["root", "b"], ["root", "b", "lib.rs"], ["root", "b", "Cargo.toml"]⟩]
    (by rfl) "liba" (List.mem_cons_self _ _)

/-- C8: every member of a computed closure arises from a package reachable from
some requested name through resolution followed by a chain consisting solely of
local (`source = none`) dependency edges; externally sourced dependencies are
never followed by the resolver (the `LocalReach` relation only steps along
`source = none` edges), so a package reachable only through an external edge
contributes no member. -/
theorem c8_local_only_membership {m : Metadata} {fuel : Nat} {roots : List String}
    {out : List LocalCrate} (h : find_crates_to_copy m fuel roots = .ok out) :
    ∀ c ∈ out, ∃ k ∈ roots, ∃ p, LocalReach m k p ∧ mkLocalCrate p = some c := by
  obtain ⟨l₀, hl₀, hout⟩ := find_crates_ok_inv h
  subst hout
  intro c hc
  exact resMany_reach_aux (fun k l hl c' hc' => getLocalDeps_reach fuel k l hl c' hc')
    _ _ hl₀ c (mem_of_mem_collectSet cmpCrate hc)

/-- C8 witness: member `b` of the closure of `mW` requested from `a` is
locally reachable from the request `a`. -/
theorem c8_witness :
    ∃ k ∈ ["a"], ∃ p, LocalReach mW k p ∧
      mkLocalCrate p =
        some ⟨"b", ["root", "b"], ["root", "b", "lib.rs"], ["root", "b", "Cargo.toml"]⟩ :=
  @c8_local_only_membership mW 5 ["a"]
    [⟨"a", ["root", "a"], ["root", "a", "lib.rs"], ["root", "a", "Cargo.toml"]⟩,
     ⟨"b", ["root", "b"], ["root", "b", "lib.rs"], ["root", "b", "Cargo.toml"]⟩]
    (by rfl)
    ⟨"b", ["root", "b"], ["root", "b", "lib.rs"], ["root", "b", "Cargo.toml"]⟩ (by decide)

/-- C9: under the acyclicity precondition on the snapshot's local dependency
relation (expressed as a rank function that strictly decreases along every local
edge), the closure computation terminates for every finite request sequence:
some finite recursion depth (fuel) suffices, i.e. the computation does not hit
the fuel bound. No cycle detection is performed anywhere in the resolver, so
termination is conditional on exactly this precondition. -/
theorem c9_termination_acyclic {m : Metadata} {rankP : Package → Nat}
    (hrk : rankOk m rankP) :
    ∀ roots : List String, ∃ fuel, 1 ≤ fuel ∧
      find_crates_to_copy m fuel roots ≠ .fuelOut := by
  intro roots
  exact ⟨(m.packages.map rankP).foldr max 0 + 2, by omega, find_crates_no_fuelOut hrk roots⟩

/-- C9 witness: on `mW` (whose only local edge goes from `a` to `b`) the rank
function sending `a` to 1 and everything else to 0 witnesses acyclicity, and any
request list gets enough fuel. -/
theorem c9_witness :
    ∃ fuel, 1 ≤ fuel ∧ find_crates_to_copy mW fuel ["a", "b"] ≠ .fuelOut :=
  @c9_termination_acyclic mW (fun p => if p.name = "a" then 1 else 0)
    (by unfold rankOk; decide) ["a", "b"]

/-- C10: when the clear-destination flag is set but nothing exists under the
output directory, the removal step fails with an I/O error and the whole run
fails before any package is copied or file is written (the run produces no
filesystem at all). -/
theorem c10_force_missing_out {fs : FS} {out : List String} {crates : List LocalCrate}
    (h : ∀ e ∈ fs, pfx out e.1 = false) :
    remove_dir_all fs out = none ∧ mainRun fs true out crates = none :=
  mainRun_force_missing h

/-- C10 witness: forcing a run of the example crate into a fresh `out` directory
fails at the removal step. -/
theorem c10_witness :
    remove_dir_all cexFS ["out"] = none ∧ mainRun cexFS true ["out"] [cexCrate] = none :=
  @c10_force_missing_out cexFS ["out"] [cexCrate] (by decide)

/-- C1 counterexample: for the allow-listed crate `cexCrate`, whose primary
source file sits at `src/lib.rs` below the crate root, the pipeline step leaves
the destination copy at the original relative path (`out/rds/src/lib.rs`) as the
unmodified original content — NOT as the directive line followed by the
content, as the claim asserts. -/
theorem c1_counterexample :
    ((processCrate cexFS ["out"] cexCrate).bind
        (fun fs' => fsRead fs' ["out", "rds", "src", "lib.rs"])).bind Doc.asText =
      some "orig" ∧
    ¬ ((((processCrate cexFS ["out"] cexCrate).bind
        (fun fs' => fsRead fs' ["out", "rds", "src", "lib.rs"])).bind Doc.asText) =
      some ("#![feature(rustc_private)]\n" ++ "orig")) := by
  constructor
  · rfl
  · decide

/-- C1 (amended): the feature-injection step reads the ORIGINAL primary source
file (`source_krate.lib_path`), not the destination copy, and writes one
directive line followed by that original content to the destination directory
joined with only the FINAL SEGMENT of the primary source path
(`to.join(lib_path.file_name())`); this coincides with the claim's
destination-copy location only when the primary source file sits directly in
the package root. -/
theorem c1_feature_injection {fs fs' : FS} {out : List String} {k : LocalCrate}
    {seg fname orig : String}
    (hseg : k.root_path.getLast? = some seg)
    (hfname : k.lib_path.getLast? = some fname)
    (hallow : CRATES_WHICH_REQUIRES_RUSTC_PRIVATE_FEATURES.contains k.name = true)
    (hlib : fsRead fs k.lib_path = some (.text orig))
    (houtlib : pfx (out ++ [seg]) k.lib_path = false)
    (hfn : fname ≠ "Cargo.toml")
    (hrun : processCrate fs out k = some fs') :
    fsRead fs' ((out ++ [seg]) ++ [fname]) =
      some (.text ("#![feature(rustc_private)]\n" ++ orig)) :=
  processCrate_target_content hseg hfname hallow hlib houtlib hfn hrun

/-- C1 witness: processing `cexCrate` writes the directive plus the original
content to `out/rds/lib.rs` (root-dir–joined file name). -/
theorem c1_witness :
    fsRead cexResult ((["out"] ++ ["rds"]) ++ ["lib.rs"]) =
      some (.text ("#![feature(rustc_private)]\n" ++ "orig")) :=
  @c1_feature_injection cexFS cexResult ["out"] cexCrate "rds" "lib.rs" "orig"
    rfl rfl rfl rfl rfl (by decide) (by rfl)

/-- C2 counterexample: in the snapshot `mDup`, the two closure members' root
directories `a/x` and `b/x` share the final segment `x`; the descriptor member
list is `["x", "x"]`, so the name `x` does not appear exactly once. -/
theorem c2_counterexample :
    find_crates_to_copy mDup 5 ["p", "q"] =
      .ok [⟨"p", ["a", "x"], ["a", "x", "lib.rs"], ["a", "x", "Cargo.toml"]⟩,
           ⟨"q", ["b", "x"], ["b", "x", "lib.rs"], ["b", "x", "Cargo.toml"]⟩] ∧
    descriptorMembers
      [⟨"p", ["a", "x"], ["a", "x", "lib.rs"], ["a", "x", "Cargo.toml"]⟩,
       ⟨"q", ["b", "x"], ["b", "x", "lib.rs"], ["b", "x", "Cargo.toml"]⟩] =
      some ["x", "x"] ∧
    ¬ ((["x", "x"].count "x") = 1) := by
  refine ⟨rfl, rfl, by decide⟩

/-- C2 (amended): the workspace descriptor's member list has exactly one entry
per closure member — the final segment of that member's root directory — in
resolver order, each quoted on its own line; the names are pairwise distinct
(each appearing exactly once) whenever distinct members' root directories have
distinct final segments, but two members whose root directories share a final
segment each contribute their own (identical) entry. -/
theorem c2_descriptor_members {m : Metadata} {fuel : Nat} {roots : List String}
    {cl : List LocalCrate} {names : List String}
    (h : find_crates_to_copy m fuel roots = .ok cl)
    (hn : descriptorMembers cl = some names) :
    names.length = cl.length ∧
    (∀ i : Nat, names[i]? = (cl[i]?).bind (fun k => k.root_path.getLast?)) ∧
    cargoTomlContent cl = some (descriptorText names) ∧
    (cl.Pairwise (fun a b => a.root_path.getLast? ≠ b.root_path.getLast?) →
      names.Nodup) := by
  obtain ⟨hlen, hget⟩ := descriptorMembers_length_get cl names hn
  exact ⟨hlen, hget, cargoTomlContent_eq hn, descriptorMembers_nodup cl names hn⟩

/-- C2 witness: on the duplicate-final-segment closure of `mDup`, the member
list is `["x", "x"]` — one entry per member, in order, matching the generated
descriptor text. -/
theorem c2_witness :
    (["x", "x"] : List String).length =
      ([⟨"p", ["a", "x"], ["a", "x", "lib.rs"], ["a", "x", "Cargo.toml"]⟩,
        ⟨"q", ["b", "x"], ["b", "x", "lib.rs"], ["b", "x", "Cargo.toml"]⟩] :
          List LocalCrate).length ∧
    (∀ i : Nat, (["x", "x"] : List String)[i]? =
      (([⟨"p", ["a", "x"], ["a", "x", "lib.rs"], ["a", "x", "Cargo.toml"]⟩,
         ⟨"q", ["b", "x"], ["b", "x", "lib.rs"], ["b", "x", "Cargo.toml"]⟩] :
           List LocalCrate)[i]?).bind (fun k => k.root_path.getLast?)) ∧
    cargoTomlContent
      [⟨"p", ["a", "x"], ["a", "x", "lib.rs"], ["a", "x", "Cargo.toml"]⟩,
       ⟨"q", ["b", "x"], ["b", "x", "lib.rs"], ["b", "x", "Cargo.toml"]⟩] =
      some (descriptorText ["x", "x"]) ∧
    (([⟨"p", ["a", "x"], ["a", "x", "lib.rs"], ["a", "x", "Cargo.toml"]⟩,
       ⟨"q", ["b", "x"], ["b", "x", "lib.rs"], ["b", "x", "Cargo.toml"]⟩] :
         List LocalCrate).Pairwise
        (fun a b => a.root_path.getLast? ≠ b.root_path.getLast?) →
      (["x", "x"] : List String).Nodup) :=
  @c2_descriptor_members mDup 5 ["p", "q"]
    [⟨"p", ["a", "x"], ["a", "x", "lib.rs"], ["a", "x", "Cargo.toml"]⟩,
     ⟨"q", ["b", "x"], ["b", "x", "lib.rs"], ["b", "x", "Cargo.toml"]⟩]
    ["x", "x"] (by rfl) (by rfl)

/-- C3 counterexample: in the manifest `tCex`, the entry `foo` under
`dev-dependencies` resolves via a filesystem path, yet the rewrite leaves the
whole `dev-dependencies` section untouched: afterwards `foo` still has no
`package` field at all (in particular not the transformed alias
`rustfmt_foo`), contradicting the claim's "wherever it is declared". -/
theorem c3_counterexample :
    (rename_crate_table tCex).bind (fun t₂ => tableGet t₂ "dev-dependencies") =
      some (.table [("foo", .table [("path", .str "../foo")])]) ∧
    ¬ (((((rename_crate_table tCex).bind (fun t₂ => tableGet t₂ "dev-dependencies")).bind
        Toml.asTable).bind (fun dt => (tableGet dt "foo").bind Toml.asTable)).bind
        (fun ft => (tableGet ft "package").bind Toml.asStr) =
      some (add_rustfmt_pfx "foo")) := by
  constructor
  · rfl
  · decide

/-- C3 (amended): the manifest rewrite forces the alias (`package`) field —
added if missing, overwritten if present — of every path-resolved entry of the
TOP-LEVEL `dependencies` table to the namespace transform of its explicit alias
override (when a string override is present) or of its dependency key name;
entries of that table without a `path` key, or that are not tables, are
unchanged, and every other section of the manifest (`dev-dependencies`,
`build-dependencies`, target-specific tables, metadata) is carried over
untouched. -/
theorem c3_manifest_rewrite {t t₂ : List (String × Toml)}
    (h : rename_crate_table t = some t₂) :
    (∀ key, key ≠ "package" → key ≠ "dependencies" → tableGet t₂ key = tableGet t key) ∧
    (∀ deps, tableGet t "dependencies" = some (.table deps) →
      ∃ deps₂, tableGet t₂ "dependencies" = some (.table deps₂) ∧
        deps₂.length = deps.length ∧
        ∀ (i : Nat) (dn : String) (dv : Toml), deps[i]? = some (dn, dv) →
          ((∃ dt, dv = Toml.table dt ∧ (tableGet dt "path").isSome = true ∧
            ∃ dt₂, deps₂[i]? = some (dn, Toml.table dt₂) ∧
              tableGet dt₂ "package" = some (Toml.str (add_rustfmt_pfx
                (((tableGet dt "package").bind Toml.asStr).getD dn))) ∧
              ∀ k₂, k₂ ≠ "package" → tableGet dt₂ k₂ = tableGet dt k₂) ∨
           (deps₂[i]? = some (dn, dv) ∧
            ∀ dt, dv = Toml.table dt → (tableGet dt "path").isSome = false))) := by
  refine ⟨fun key hk₁ hk₂ => rename_crate_table_other h hk₁ hk₂, ?_⟩
  intro deps hdeps
  obtain ⟨pv, pkg, nv, name, hpv, hpkg, hnv, hname, hcase⟩ := rename_crate_table_inv h
  rcases hcase with ⟨hnone, _⟩ | ⟨deps', hsome, ht₂⟩
  · rw [hdeps] at hnone
    simp [Toml.asTable] at hnone
  · rw [hdeps] at hsome
    simp only [Option.some_bind, Toml.asTable, Option.some.injEq] at hsome
    subst hsome
    subst ht₂
    refine ⟨deps.map renameDepEntry, tableGet_insert_self _ _ _, by simp, ?_⟩
    intro i dn dv hidx
    have hmap : (deps.map renameDepEntry)[i]? = some (renameDepEntry (dn, dv)) := by
      rw [List.getElem?_map, hidx]
      rfl
    cases dv with
    | str s =>
      refine Or.inr ⟨?_, ?_⟩
      · rw [hmap, @renameDepEntry_nontable dn (Toml.str s) rfl]
      · intro dt hdt
        exact Toml.noConfusion hdt
    | table dt =>
      by_cases hpath : (tableGet dt "path").isSome = true
      · obtain ⟨dt₂, hren, hpkg', hothers⟩ := @renameDepEntry_spec dn dt hpath
        exact Or.inl ⟨dt, rfl, hpath, dt₂, by rw [hmap, hren], hpkg', hothers⟩
      · have hpath' : (tableGet dt "path").isSome = false := by
          cases hx : (tableGet dt "path").isSome
          · rfl
          · exact absurd hx hpath
        refine Or.inr ⟨by rw [hmap, renameDepEntry_nopath hpath'], ?_⟩
        intro dt' hdt'
        injection hdt' with he
        rw [← he]
        exact hpath'

/-- C3 witness: rewriting `tW` forces the alias of the path dependency `util`
to `rustfmt_util`, leaves the registry dependency `log` untouched, and carries
every other section through unchanged. -/
theorem c3_witness :
    (∀ key, key ≠ "package" → key ≠ "dependencies" →
      tableGet tWres key = tableGet tW key) ∧
    (∀ deps, tableGet tW "dependencies" = some (.table deps) →
      ∃ deps₂, tableGet tWres "dependencies" = some (.table deps₂) ∧
        deps₂.length = deps.length ∧
        ∀ (i : Nat) (dn : String) (dv : Toml), deps[i]? = some (dn, dv) →
          ((∃ dt, dv = Toml.table dt ∧ (tableGet dt "path").isSome = true ∧
            ∃ dt₂, deps₂[i]? = some (dn, Toml.table dt₂) ∧
              tableGet dt₂ "package" = some (Toml.str (add_rustfmt_pfx
                (((tableGet dt "package").bind Toml.asStr).getD dn))) ∧
              ∀ k₂, k₂ ≠ "package" → tableGet dt₂ k₂ = tableGet dt k₂) ∨
           (deps₂[i]? = some (dn, dv) ∧
            ∀ dt, dv = Toml.table dt → (tableGet dt "path").isSome = false))) :=
  @c3_manifest_rewrite tW tWres (by rfl)

/-- C7 counterexample: running the whole pipeline a second time with the same
inputs against the non-clean destination left by the first run does NOT
duplicate the directive: the injector-written destination file still holds
exactly one directive line followed by the original content (and the copied
`src/lib.rs` holds the plain original), not two directive lines as claimed. -/
theorem c7_counterexample :
    ((mainRun cexFS false ["out"] [cexCrate]).bind
        (fun fs₁ => mainRun fs₁ false ["out"] [cexCrate])).bind
      (fun fs₂ => (fsRead fs₂ ["out", "rds", "lib.rs"]).bind Doc.asText) =
      some ("#![feature(rustc_private)]\n" ++ "orig") ∧
    ((mainRun cexFS false ["out"] [cexCrate]).bind
        (fun fs₁ => mainRun fs₁ false ["out"] [cexCrate])).bind
      (fun fs₂ => (fsRead fs₂ ["out", "rds", "src", "lib.rs"]).bind Doc.asText) =
      some "orig" ∧
    ¬ (((mainRun cexFS false ["out"] [cexCrate]).bind
        (fun fs₁ => mainRun fs₁ false ["out"] [cexCrate])).bind
      (fun fs₂ => (fsRead fs₂ ["out", "rds", "lib.rs"]).bind Doc.asText) =
      some ("#![feature(rustc_private)]\n" ++
        ("#![feature(rustc_private)]\n" ++ "orig"))) := by
  refine ⟨rfl, rfl, by decide⟩

/-- C7 (amended): re-running the whole pipeline against the non-clean
destination left by a successful run does NOT duplicate the directive. The
injector re-reads the untouched ORIGINAL source file each run, and the copier
re-overwrites the destination first, so after the second run the injector's
destination file content is identical to after the first: exactly one directive
line followed by the original content. -/
theorem c7_rerun_idempotent {fs fs₁ fs₂ : FS} {out : List String} {k : LocalCrate}
    {seg fname orig : String}
    (hseg : k.root_path.getLast? = some seg)
    (hfname : k.lib_path.getLast? = some fname)
    (hallow : CRATES_WHICH_REQUIRES_RUSTC_PRIVATE_FEATURES.contains k.name = true)
    (hlib : fsRead fs k.lib_path = some (.text orig))
    (houtlib : pfx (out ++ [seg]) k.lib_path = false)
    (hlibct : k.lib_path ≠ out ++ ["Cargo.toml"])
    (hfn : fname ≠ "Cargo.toml")
    (h₁ : mainRun fs false out [k] = some fs₁)
    (h₂ : mainRun fs₁ false out [k] = some fs₂) :
    fsRead fs₁ ((out ++ [seg]) ++ [fname]) =
      some (.text ("#![feature(rustc_private)]\n" ++ orig)) ∧
    fsRead fs₂ ((out ++ [seg]) ++ [fname]) =
      fsRead fs₁ ((out ++ [seg]) ++ [fname]) := by
  obtain ⟨fsp₁, txt₁, hp₁, hct₁, hf₁⟩ := mainRun_false_single_inv h₁
  obtain ⟨fsp₂, txt₂, hp₂, hct₂, hf₂⟩ := mainRun_false_single_inv h₂
  have htgt : (out ++ [seg]) ++ [fname] ≠ out ++ ["Cargo.toml"] := by
    intro he
    have hlen := congrArg List.length he
    simp [List.length_append] at hlen
  have hc₁ := processCrate_target_content hseg hfname hallow hlib houtlib hfn hp₁
  have hr₁ : fsRead fs₁ ((out ++ [seg]) ++ [fname]) =
      some (.text ("#![feature(rustc_private)]\n" ++ orig)) := by
    rw [hf₁, fsRead_fsWrite_ne htgt, hc₁]
  have hlib₁ : fsRead fs₁ k.lib_path = some (.text orig) := by
    rw [hf₁, fsRead_fsWrite_ne hlibct, processCrate_read_outside hp₁ hseg houtlib]
    exact hlib
  have hc₂ := processCrate_target_content hseg hfname hallow hlib₁ houtlib hfn hp₂
  have hr₂ : fsRead fs₂ ((out ++ [seg]) ++ [fname]) =
      some (.text ("#![feature(rustc_private)]\n" ++ orig)) := by
    rw [hf₂, fsRead_fsWrite_ne htgt, hc₂]
  exact ⟨hr₁, by rw [hr₂, hr₁]⟩

/-- C7 witness: two consecutive pipeline runs on `cexFS` both leave
`out/rds/lib.rs` holding exactly one directive line plus the original. -/
theorem c7_witness :
    fsRead cexRun1 ((["out"] ++ ["rds"]) ++ ["lib.rs"]) =
      some (.text ("#![feature(rustc_private)]\n" ++ "orig")) ∧
    fsRead cexRun1 ((["out"] ++ ["rds"]) ++ ["lib.rs"]) =
      fsRead cexRun1 ((["out"] ++ ["rds"]) ++ ["lib.rs"]) :=
  @c7_rerun_idempotent cexFS cexRun1 cexRun1 ["out"] cexCrate "rds" "lib.rs" "orig"
    rfl rfl rfl rfl rfl (by decide) (by decide) (by rfl) (by rfl)
